import Mathlib

/-!
Shallow embedding of the tiny-infini-gram language model (a Go program built
on `index/suffixarray`): occurrence lookup, the n-gram level scanner, the two
distribution blenders (rank-decay and specificity-log-ratio), the temperature
sampler, the sliding-window generator, and the perplexity evaluator.

Symbols are corpus bytes, modelled as naturals; a corpus or a context is a
`List ℕ`.  Go's float64 arithmetic is modelled by exact arithmetic: counts
and rank-decay weights live in `ℚ`, logarithmic weights, temperature
exponentiation and perplexity live in `ℝ`.  The Go code draws
`rand.Float64()`; the draw is passed in explicitly as a value `u ∈ [0,1)`
(one value per generation step).  Go iterates its `map[byte]float64` in an
unspecified order; the embedding pins the iteration order (first-occurrence
order of the follower bytes), which never changes any count, weight or total.
-/

namespace TinyInfiniGram

/-- Occurrence offsets of `pat` in `data`: the result set of Go
`idx.Lookup(pat, -1)` over the suffix array of `data` (every position where
`pat` occurs verbatim), pinned to ascending order. -/
def Lookup (data pat : List ℕ) : List ℕ :=
  (List.range data.length).filter (fun p => pat.isPrefixOf (data.drop p))

/-- The follower bytes of `pat` in `data`: Go's
`for _, off := range offsets { if pos := off + n; pos < len(data) { counts[data[pos]]++ } }` —
for each occurrence offset the byte right after the matched span, occurrences
at the very end of the corpus (no following byte) skipped. -/
def followersAt (data pat : List ℕ) : List ℕ :=
  (Lookup data pat).filterMap (fun p => (data.drop (p + pat.length)).head?)

/-- One admitted match level, Go `Level{counts, numMatches, n}`.  The counts
map and `numMatches` are recovered from the follower multiset (`count` below
is the map entry for a byte, `numMatches` the sum of all entries). -/
structure Level where
  followers : List ℕ
  n : ℕ
deriving DecidableEq

/-- Entry of the Go counts map for byte `ch` (0 when absent, as for a Go map). -/
def Level.count (l : Level) (ch : ℕ) : ℕ := l.followers.count ch

/-- Go `numMatches`: the total of the counts map, i.e. the number of
occurrences that have a following byte. -/
def Level.numMatches (l : Level) : ℕ := l.followers.length

/-- The scanning loop of `buildDistribution` / `Sample` (identical in the
sources): iterate suffixes of the context from longest to shortest while the
budget allows (`k < 0 || len(levels) < k`); skip a suffix whose lookup is
empty; admit a suffix as a new level exactly when its `numMatches` strictly
exceeds `lastNumMatches`, then update `lastNumMatches`. -/
def scanAux (data : List ℕ) (k : ℤ) : List ℕ → List Level → ℕ → List Level
  | [], levels, _ => levels
  | x :: rest, levels, lastNumMatches =>
    if k < 0 ∨ (levels.length : ℤ) < k then
      if Lookup data (x :: rest) = [] then
        scanAux data k rest levels lastNumMatches
      else if lastNumMatches < (followersAt data (x :: rest)).length then
        scanAux data k rest
          (levels ++ [⟨followersAt data (x :: rest), (x :: rest).length⟩])
          (followersAt data (x :: rest)).length
      else scanAux data k rest levels lastNumMatches
    else levels

/-- The level scanner: the level-discovery phase shared by
`buildDistribution`, `Sample` and `Perplexity` (spec component
`LevelScanner`).  `k = -1` is the unbounded sentinel. -/
def levelScan (data context : List ℕ) (k : ℤ) : List Level :=
  scanAux data k context [] 0

/-- Rank-decay blending (`decay := 0.1`): the i-th admitted level (0-indexed)
contributes `decay^i * count` per byte — Go
`w := math.Pow(decay, float64(i)); combined[ch] += w * float64(cnt)`. -/
def combinedDecay (levels : List Level) (ch : ℕ) : ℚ :=
  (levels.enum.map (fun p => (1 / 10 : ℚ) ^ p.1 * p.2.count ch)).sum

/-- The key set of the Go `combined` map: every byte that appears as a
follower of some admitted level, pinned to first-occurrence order. -/
def keysOf (levels : List Level) : List ℕ :=
  (levels.flatMap Level.followers).dedup

/-- The normalization total of `Perplexity`: Go
`for _, w := range dist { total += w }`, the sum of the combined map's
entries. -/
def totalDecay (levels : List Level) : ℚ :=
  ((keysOf levels).map (combinedDecay levels)).sum

/-- The normalized rank-decay probability of a byte: Go
`dist[ch] /= total` followed by the map read `dist[text[i]]` (0 for a byte
with no entry, as for a Go map). -/
def normDecay (levels : List Level) (ch : ℕ) : ℚ :=
  combinedDecay levels ch / totalDecay levels

/-- Go `buildDistribution`: the scanner followed by rank-decay blending;
`none` is Go's `nil, nil, nil` result for an unseen context. -/
def buildDistribution (data context : List ℕ) (k : ℤ) :
    Option ((ℕ → ℚ) × List ℕ × List ℕ) :=
  let levels := levelScan data context k
  if levels = [] then none
  else some (combinedDecay levels, levels.map Level.n, levels.map Level.numMatches)

/-- The cumulative-subtraction sampling loop: Go
`for ch, w := range combined { if r -= w; r < 0 { return ch } }`; `none` is
the fall-through `return 0, nil, nil` after the loop. -/
noncomputable def scanPick : List (ℕ × ℝ) → ℝ → Option ℕ
  | [], _ => none
  | (ch, w) :: rest, r => if r - w < 0 then some ch else scanPick rest (r - w)

/-- The temperature-adjusted weight list: Go
`combined[ch] = math.Pow(w, 1/temp)` over the combined map's entries. -/
noncomputable def tempWeights (levels : List Level) (temp : ℝ) : List (ℕ × ℝ) :=
  (keysOf levels).map
    (fun ch => (ch, ((combinedDecay levels ch : ℚ) : ℝ) ^ (1 / temp)))

/-- The sampling total: Go `total += combined[ch]` over the adjusted map. -/
noncomputable def totalTempWeight (levels : List Level) (temp : ℝ) : ℝ :=
  ((tempWeights levels temp).map Prod.snd).sum

/-- The sampling phase of Go `Sample`, with the random draw `u` explicit
(Go: `r := rand.Float64() * total`).  `none` covers both `return 0, nil, nil`
sites: the unseen-context return and the fall-through after the scan loop. -/
noncomputable def samplePick (data context : List ℕ) (temp u : ℝ) (k : ℤ) : Option ℕ :=
  let levels := levelScan data context k
  if levels = [] then none
  else scanPick (tempWeights levels temp) (u * totalTempWeight levels temp)

/-- Go `Sample` (infini-gram.go): returns the sampled byte plus the per-level
`n` values and match counts; the byte 0 with empty lists reproduces both
`return 0, nil, nil` sites. -/
noncomputable def Sample (data context : List ℕ) (temp u : ℝ) (k : ℤ) :
    ℕ × List ℕ × List ℕ :=
  let levels := levelScan data context k
  match samplePick data context temp u k with
  | none => (0, [], [])
  | some ch => (ch, levels.map Level.n, levels.map Level.numMatches)

/-- The generation loop of Go `Generate`: while `len(result) < maxChars`,
sample on the trailing 200-byte window and append; break when the sampled
byte is the 0 sentinel.  `fuel` is `maxChars - len(result)`, `step` indexes
the random draw used at each iteration.  The per-rank stats accumulation of
the Go loop is omitted: it never feeds back into the generated text. -/
noncomputable def generateAux (data : List ℕ) (temp : ℝ) (u : ℕ → ℝ) (k : ℤ) :
    ℕ → ℕ → List ℕ → List ℕ
  | 0, _, result => result
  | fuel + 1, step, result =>
    let ch := (Sample data (result.drop (result.length - 200)) temp (u step) k).1
    if ch = 0 then result
    else generateAux data temp u k fuel (step + 1) (result ++ [ch])

/-- Go `Generate` (text component): start from the prompt and run the
sampling loop until `maxChars` is reached or sampling yields the 0 sentinel. -/
noncomputable def Generate (data prompt : List ℕ) (maxChars : ℕ) (temp : ℝ)
    (u : ℕ → ℝ) (k : ℤ) : List ℕ :=
  generateAux data temp u k (maxChars - prompt.length) 0 prompt

/-- The probability Go `Perplexity` assigns to position `i` of `text`:
context `text[max(0,i-contextLen):i]`; the smoothing floor `1e-10` when
`buildDistribution` returns nil (no levels admitted) or when the normalized
probability of the true byte `text[i]` is not positive, the normalized
probability otherwise. -/
noncomputable def pplProbAt (data : List ℕ) (k : ℤ) (contextLen : ℕ)
    (text : List ℕ) (i : ℕ) : ℝ :=
  let levels := levelScan data ((text.take i).drop (i - contextLen)) k
  if levels = [] then 1e-10
  else
    let p := normDecay levels (text.getD i 0)
    if 0 < p then (p : ℝ) else 1e-10

/-- The accumulator of Go `Perplexity`'s loop over positions `i = 1` to
`len(text)-1`: the running `logProbSum` and `count` (count is incremented at
every evaluated position). -/
noncomputable def pplAccum (data text : List ℕ) (k : ℤ) (contextLen : ℕ) : ℝ × ℕ :=
  (List.range' 1 (text.length - 1)).foldl
    (fun acc i => (acc.1 + Real.log (pplProbAt data k contextLen text i), acc.2 + 1))
    (0, 0)

/-- Go `Perplexity`: `math.Exp(-logProbSum / float64(count))`. -/
noncomputable def Perplexity (data text : List ℕ) (k : ℤ) (contextLen : ℕ) : ℝ :=
  Real.exp (-(pplAccum data text k contextLen).1 / ((pplAccum data text k contextLen).2 : ℝ))

/-- Go `maxMatches := levels[len(levels)-1].numMatches` in `SampleK`
(main.go): the match total of the last-admitted (broadest) level.  The Go
read is guarded by a non-empty check; the default is never reached there. -/
def maxMatchesOf (levels : List Level) : ℕ :=
  (levels.getLastD ⟨[], 0⟩).numMatches

/-- The specificity-log-ratio weight of one level in `SampleK` (main.go):
`log(maxMatches+1)` when the level's `numMatches` is 1, otherwise
`log(maxMatches+1) / log(numMatches+1)`. -/
noncomputable def levelWeight (maxM : ℕ) (l : Level) : ℝ :=
  if l.numMatches = 1 then Real.log ((maxM : ℝ) + 1)
  else Real.log ((maxM : ℝ) + 1) / Real.log ((l.numMatches : ℝ) + 1)

/-- The blending loop of `SampleK` (main.go): for each admitted level add
`weight * cnt` to the combined entry of every follower byte. -/
noncomputable def blendLog (levels : List Level) : ℕ → ℝ :=
  levels.foldl
    (fun acc l => fun ch => acc ch + levelWeight (maxMatchesOf levels) l * (l.count ch : ℝ))
    (fun _ => 0)

/-- The normalization total for the log-ratio blend (sum of the combined
map's entries). -/
noncomputable def totalLog (levels : List Level) : ℝ :=
  ((keysOf levels).map (blendLog levels)).sum

/-- The normalized log-ratio probability of a byte. -/
noncomputable def normLog (levels : List Level) (ch : ℕ) : ℝ :=
  blendLog levels ch / totalLog levels

/-- The running maximum of follower totals over the first `i` candidate
suffixes (`s.drop 0` … `s.drop (i-1)`), seeded with `last`: the value of Go's
`lastNumMatches` after those candidates have been processed. -/
def flenAt (data s : List ℕ) : ℕ := (followersAt data s).length

def runMax (data s : List ℕ) (last i : ℕ) : ℕ :=
  ((List.range i).map (fun j => flenAt data (s.drop j))).foldl max last

/-! Scanner lemmas. -/

lemma followersAt_of_lookup_nil {data p : List ℕ} (h : Lookup data p = []) :
    followersAt data p = [] := by
  simp [followersAt, h]

lemma lookup_ne_nil_of_followers {data p : List ℕ} (h : followersAt data p ≠ []) :
    Lookup data p ≠ [] := by
  intro hnil
  exact h (followersAt_of_lookup_nil hnil)

lemma scanAux_extend (data : List ℕ) (k : ℤ) :
    ∀ (s : List ℕ) (acc : List Level) (last : ℕ),
      ∃ t, scanAux data k s acc last = acc ++ t := by
  intro s
  induction s with
  | nil => intro acc last; exact ⟨[], by simp [scanAux]⟩
  | cons x rest ih =>
    intro acc last
    simp only [scanAux]
    split_ifs with h1 h2 h3
    · exact ih acc last
    · obtain ⟨t, ht⟩ :=
        ih (acc ++ [⟨followersAt data (x :: rest), (x :: rest).length⟩])
          (followersAt data (x :: rest)).length
      exact ⟨[⟨followersAt data (x :: rest), (x :: rest).length⟩] ++ t,
        by rw [ht, List.append_assoc]⟩
    · exact ih acc last
    · exact ⟨[], by simp⟩

lemma mem_scanAux_of_mem (data : List ℕ) (k : ℤ) {s : List ℕ} {acc : List Level}
    {last : ℕ} {l : Level} (h : l ∈ acc) : l ∈ scanAux data k s acc last := by
  obtain ⟨t, ht⟩ := scanAux_extend data k s acc last
  rw [ht]
  exact List.mem_append_left _ h

lemma scanAux_ne_nil_of_acc (data : List ℕ) (k : ℤ) {s : List ℕ} {acc : List Level}
    {last : ℕ} (h : acc ≠ []) : scanAux data k s acc last ≠ [] := by
  obtain ⟨t, ht⟩ := scanAux_extend data k s acc last
  rw [ht]
  simp [h]

lemma mem_scanAux (data : List ℕ) (k : ℤ) :
    ∀ (s : List ℕ) (acc : List Level) (last : ℕ) (l : Level),
      l ∈ scanAux data k s acc last →
      l ∈ acc ∨ ∃ m, m < s.length ∧ l.followers = followersAt data (s.drop m) ∧
        l.n = s.length - m ∧ Lookup data (s.drop m) ≠ [] ∧
        1 ≤ (followersAt data (s.drop m)).length := by
  intro s
  induction s with
  | nil => intro acc last l h; left; simpa [scanAux] using h
  | cons x rest ih =>
    intro acc last l h
    simp only [scanAux] at h
    split_ifs at h with h1 h2 h3
    · rcases ih acc last l h with hl | ⟨m, hm, hf, hn, hlk, hfl⟩
      · exact Or.inl hl
      · exact Or.inr ⟨m + 1, by simpa using hm, by simpa using hf,
          by simpa using hn, by simpa using hlk, by simpa using hfl⟩
    · rcases ih _ _ l h with hl | ⟨m, hm, hf, hn, hlk, hfl⟩
      · rcases List.mem_append.mp hl with hl' | hl'
        · exact Or.inl hl'
        · simp only [List.mem_singleton] at hl'
          subst hl'
          exact Or.inr ⟨0, by simp, by simp, by simp, by simpa using h2,
            by simpa using Nat.lt_of_le_of_lt (Nat.zero_le _) h3⟩
      · exact Or.inr ⟨m + 1, by simpa using hm, by simpa using hf,
          by simpa using hn, by simpa using hlk, by simpa using hfl⟩
    · rcases ih acc last l h with hl | ⟨m, hm, hf, hn, hlk, hfl⟩
      · exact Or.inl hl
      · exact Or.inr ⟨m + 1, by simpa using hm, by simpa using hf,
          by simpa using hn, by simpa using hlk, by simpa using hfl⟩
    · exact Or.inl h

lemma scanAux_matches_sorted (data : List ℕ) (k : ℤ) :
    ∀ (s : List ℕ) (acc : List Level) (last : ℕ),
      (∀ l ∈ acc, l.numMatches ≤ last) →
      acc.Pairwise (fun a b => a.numMatches < b.numMatches) →
      (scanAux data k s acc last).Pairwise (fun a b => a.numMatches < b.numMatches) := by
  intro s
  induction s with
  | nil => intro acc last _ h2; simpa [scanAux] using h2
  | cons x rest ih =>
    intro acc last h1 h2
    simp only [scanAux]
    split_ifs with hg hlk hadm
    · exact ih acc last h1 h2
    · apply ih
      · intro l hl
        rcases List.mem_append.mp hl with hl' | hl'
        · exact le_of_lt (lt_of_le_of_lt (h1 l hl') hadm)
        · simp only [List.mem_singleton] at hl'
          subst hl'
          exact le_rfl
      · rw [List.pairwise_append]
        refine ⟨h2, by simp, ?_⟩
        intro a ha b hb
        simp only [List.mem_singleton] at hb
        subst hb
        exact lt_of_le_of_lt (h1 a ha) hadm
    · exact ih acc last h1 h2
    · exact h2

lemma scanAux_n_sorted (data : List ℕ) (k : ℤ) :
    ∀ (s : List ℕ) (acc : List Level) (last : ℕ),
      (∀ l ∈ acc, s.length < l.n) →
      acc.Pairwise (fun a b => b.n < a.n) →
      (scanAux data k s acc last).Pairwise (fun a b => b.n < a.n) := by
  intro s
  induction s with
  | nil => intro acc last _ h2; simpa [scanAux] using h2
  | cons x rest ih =>
    intro acc last h1 h2
    simp only [scanAux]
    split_ifs with hg hlk hadm
    · exact ih acc last (fun l hl => Nat.lt_of_le_of_lt (Nat.le_succ _) (h1 l hl)) h2
    · apply ih
      · intro l hl
        rcases List.mem_append.mp hl with hl' | hl'
        · exact Nat.lt_of_le_of_lt (Nat.le_succ _) (h1 l hl')
        · simp only [List.mem_singleton] at hl'
          subst hl'
          simp
      · rw [List.pairwise_append]
        refine ⟨h2, by simp, ?_⟩
        intro a ha b hb
        simp only [List.mem_singleton] at hb
        subst hb
        exact h1 a ha
    · exact ih acc last (fun l hl => Nat.lt_of_le_of_lt (Nat.le_succ _) (h1 l hl)) h2
    · exact h2

lemma scanAux_budget (data : List ℕ) {k : ℤ} (hk : 0 ≤ k) :
    ∀ (s : List ℕ) (acc : List Level) (last : ℕ),
      (acc.length : ℤ) ≤ k → ((scanAux data k s acc last).length : ℤ) ≤ k := by
  intro s
  induction s with
  | nil => intro acc last h; simpa [scanAux] using h
  | cons x rest ih =>
    intro acc last h
    simp only [scanAux]
    split_ifs with hg hlk hadm
    · exact ih acc last h
    · apply ih
      rcases hg with hg | hg
      · omega
      · simp only [List.length_append, List.length_singleton]
        push_cast
        omega
    · exact ih acc last h
    · exact h

lemma runMax_zero (data s : List ℕ) (last : ℕ) : runMax data s last 0 = last := rfl

lemma runMax_succ (data : List ℕ) (x : ℕ) (rest : List ℕ) (last i : ℕ) :
    runMax data (x :: rest) last (i + 1) =
      runMax data rest (max last (flenAt data (x :: rest))) i := by
  simp only [runMax, List.range_succ_eq_map, List.map_cons, List.foldl_cons, List.map_map,
    List.drop_zero, Function.comp_def, List.drop_succ_cons]

lemma scanAux_complete (data : List ℕ) {k : ℤ} (hk : k < 0) :
    ∀ (s : List ℕ) (i : ℕ) (acc : List Level) (last : ℕ),
      i < s.length → runMax data s last i < flenAt data (s.drop i) →
      (⟨followersAt data (s.drop i), s.length - i⟩ : Level) ∈ scanAux data k s acc last := by
  intro s
  induction s with
  | nil => intro i acc last hi _; simp at hi
  | cons x rest ih =>
    intro i acc last hi hrm
    cases i with
    | zero =>
      rw [runMax_zero] at hrm
      simp only [List.drop_zero] at hrm ⊢
      have hfl : followersAt data (x :: rest) ≠ [] := by
        intro hnil
        rw [flenAt, hnil] at hrm
        simp at hrm
      have hlk : Lookup data (x :: rest) ≠ [] := lookup_ne_nil_of_followers hfl
      simp only [scanAux, if_pos (Or.inl hk), if_neg hlk, flenAt] at hrm ⊢
      rw [if_pos hrm]
      exact mem_scanAux_of_mem data k
        (by simp : (⟨followersAt data (x :: rest), (x :: rest).length - 0⟩ : Level) ∈
          acc ++ [⟨followersAt data (x :: rest), (x :: rest).length⟩])
    | succ j =>
      rw [runMax_succ] at hrm
      simp only [List.drop_succ_cons] at hrm ⊢
      have hj : j < rest.length := by simpa using hi
      have hlen : (x :: rest).length - (j + 1) = rest.length - j := by simp
      rw [hlen]
      simp only [scanAux]
      split_ifs with hg hlk hadm
      · have h0 : flenAt data (x :: rest) = 0 := by
          simp [flenAt, followersAt_of_lookup_nil hlk]
        rw [h0, Nat.max_zero] at hrm
        exact ih j _ last hj hrm
      · have hmax : max last (flenAt data (x :: rest)) = flenAt data (x :: rest) :=
          Nat.max_eq_right (Nat.le_of_lt hadm)
        rw [hmax] at hrm
        exact ih j _ _ hj hrm
      · have hmax : max last (flenAt data (x :: rest)) = last :=
          Nat.max_eq_left (Nat.le_of_not_lt hadm)
        rw [hmax] at hrm
        exact ih j _ last hj hrm
      · exact absurd (Or.inl hk) hg

lemma scanAux_ne_nil (data : List ℕ) {k : ℤ} (hk : k < 0 ∨ 1 ≤ k) :
    ∀ s : List ℕ, (∃ m, m < s.length ∧ followersAt data (s.drop m) ≠ []) →
      scanAux data k s [] 0 ≠ [] := by
  intro s
  induction s with
  | nil => rintro ⟨m, hm, _⟩; simp at hm
  | cons x rest ih =>
    rintro ⟨m, hm, hf⟩
    have hguard : k < 0 ∨ (([] : List Level).length : ℤ) < k := by
      rcases hk with h | h
      · exact Or.inl h
      · right; simpa using h
    simp only [scanAux, if_pos hguard]
    by_cases hlk : Lookup data (x :: rest) = []
    · rw [if_pos hlk]
      apply ih
      cases m with
      | zero =>
        exact absurd (by simpa using followersAt_of_lookup_nil hlk) hf
      | succ j => exact ⟨j, by simpa using hm, by simpa using hf⟩
    · rw [if_neg hlk]
      by_cases hadm : 0 < (followersAt data (x :: rest)).length
      · rw [if_pos hadm]
        exact scanAux_ne_nil_of_acc data k (by simp)
      · rw [if_neg hadm]
        apply ih
        have h0 : followersAt data (x :: rest) = [] :=
          List.length_eq_zero.mp (Nat.le_zero.mp (Nat.le_of_not_lt hadm))
        cases m with
        | zero => exact absurd (by simpa using h0) hf
        | succ j => exact ⟨j, by simpa using hm, by simpa using hf⟩

/-! The claims. -/

/-- C1: for every corpus, context and level budget `k`, the scanner's output
has strictly decreasing suffix lengths `n` (longest-first) and strictly
increasing `totalMatches`; every admitted level comes from a context suffix
whose corpus lookup is non-empty (with at least one counted follower, so its
`totalMatches` strictly exceeds the previously admitted level's by the
increasing chain); at most `k` levels are admitted when `k ≥ 0`; and when
`k < 0` (the unbounded sentinel) every strictly-improving suffix — one whose
follower total beats the running maximum over all longer suffixes — is
admitted, down to suffix length 1. -/
theorem claim1_scanner_invariants (data context : List ℕ) (k : ℤ) :
    (levelScan data context k).Pairwise (fun a b => b.n < a.n) ∧
    (levelScan data context k).Pairwise (fun a b => a.numMatches < b.numMatches) ∧
    (∀ l ∈ levelScan data context k, ∃ m, m < context.length ∧
      l.followers = followersAt data (context.drop m) ∧
      l.n = context.length - m ∧ Lookup data (context.drop m) ≠ [] ∧
      1 ≤ l.numMatches) ∧
    (0 ≤ k → ((levelScan data context k).length : ℤ) ≤ k) ∧
    (k < 0 → ∀ i, i < context.length →
      runMax data context 0 i < flenAt data (context.drop i) →
      (⟨followersAt data (context.drop i), context.length - i⟩ : Level) ∈
        levelScan data context k) := by
  refine ⟨?_, ?_, ?_, ?_, ?_⟩
  · exact scanAux_n_sorted data k context [] 0 (by simp) (by simp)
  · exact scanAux_matches_sorted data k context [] 0 (by simp) (by simp)
  · intro l hl
    rcases mem_scanAux data k context [] 0 l hl with h | ⟨m, hm, hf, hn, hlk, hfl⟩
    · simp at h
    · exact ⟨m, hm, hf, hn, hlk, by simpa [Level.numMatches, hf] using hfl⟩
  · intro hk
    exact scanAux_budget data hk context [] 0 (by simpa using hk)
  · intro hk i hi hrm
    exact scanAux_complete data hk context i [] 0 hi hrm

/-- Witness for C1 on a concrete corpus and context: the budget bound at
`k = 1` and the unbounded-sentinel completeness at suffix index 1. -/
theorem claim1_witness :
    ((levelScan [1, 2, 1, 3] [2, 1] 1).length : ℤ) ≤ 1 ∧
    (⟨followersAt [1, 2, 1, 3] (List.drop 1 [2, 1]), List.length [2, 1] - 1⟩ : Level) ∈
      levelScan [1, 2, 1, 3] [2, 1] (-1) :=
  ⟨(claim1_scanner_invariants [1, 2, 1, 3] [2, 1] 1).2.2.2.1 (by norm_num),
   (claim1_scanner_invariants [1, 2, 1, 3] [2, 1] (-1)).2.2.2.2 (by norm_num) 1
     (by norm_num) (by decide)⟩

/-- C5 counterexample: in the corpus `[1, 2]` the context `[2]` occurs
verbatim (its lookup is non-empty), but its single occurrence ends the corpus,
so its follower total is 0 and the scanner admits no level at all — the claim
that the scanner returns at least one level for every context with a suffix
occurring in the corpus is false. -/
theorem claim5_counterexample :
    Lookup [1, 2] [2] ≠ [] ∧ levelScan [1, 2] [2] (-1) = [] := by decide

/-- C5 (amended): for every corpus and context, if the level budget is not 0
and some suffix of the context has an occurrence that is followed by a corpus
byte (i.e. an occurrence not at the very end of the corpus), the scanner
admits at least one level; occurrences at the very end of the corpus
contribute nothing, and a context all of whose matches are corpus-final
yields an empty level list. -/
theorem claim5_scanner_nonempty (data context : List ℕ) (k : ℤ)
    (hk : k < 0 ∨ 1 ≤ k)
    (h : ∃ m, m < context.length ∧ followersAt data (context.drop m) ≠ []) :
    levelScan data context k ≠ [] :=
  scanAux_ne_nil data hk context h

/-- Witness for C5 at a concrete input: corpus `[1, 1]`, context `[1]`,
unbounded budget. -/
theorem claim5_witness : levelScan [1, 1] [1] (-1) ≠ [] :=
  claim5_scanner_nonempty [1, 1] [1] (-1) (Or.inl (by norm_num))
    ⟨0, by norm_num, by decide⟩

/-! Blending lemmas. -/

lemma enumFrom_decay_sum (ch : ℕ) :
    ∀ (ls : List Level) (n : ℕ),
      ((List.enumFrom n ls).map (fun p => (1 / 10 : ℚ) ^ p.1 * p.2.count ch)).sum =
        (1 / 10 : ℚ) ^ n * combinedDecay ls ch := by
  intro ls
  induction ls with
  | nil => intro n; simp [combinedDecay]
  | cons l ls ih =>
    intro n
    have h0 : combinedDecay (l :: ls) ch =
        (1 / 10 : ℚ) ^ 0 * l.count ch +
          ((List.enumFrom 1 ls).map (fun p => (1 / 10 : ℚ) ^ p.1 * p.2.count ch)).sum := by
      simp [combinedDecay, List.enum, List.enumFrom_cons]
    rw [List.enumFrom_cons, List.map_cons, List.sum_cons, ih (n + 1), h0, ih 1]
    ring

lemma combinedDecay_cons (l : Level) (ls : List Level) (ch : ℕ) :
    combinedDecay (l :: ls) ch = l.count ch + (1 / 10 : ℚ) * combinedDecay ls ch := by
  have h1 : (l :: ls).enum = (0, l) :: List.enumFrom 1 ls := by
    simp [List.enum, List.enumFrom_cons]
  rw [combinedDecay, h1, List.map_cons, List.sum_cons, enumFrom_decay_sum ch ls 1]
  simp

lemma combinedDecay_nonneg (levels : List Level) (ch : ℕ) :
    0 ≤ combinedDecay levels ch := by
  induction levels with
  | nil => simp [combinedDecay]
  | cons l ls ih =>
    rw [combinedDecay_cons]
    positivity

lemma combinedDecay_pos {levels : List Level} {ch : ℕ}
    (h : ∃ l ∈ levels, ch ∈ l.followers) : 0 < combinedDecay levels ch := by
  induction levels with
  | nil => simp at h
  | cons l ls ih =>
    rw [combinedDecay_cons]
    rcases h with ⟨l', hl', hc⟩
    rcases List.mem_cons.mp hl' with rfl | hl'
    · have hcnt : 0 < l'.count ch := List.count_pos_iff.mpr hc
      have := combinedDecay_nonneg ls ch
      have : (0 : ℚ) < l'.count ch := by exact_mod_cast hcnt
      nlinarith [combinedDecay_nonneg ls ch]
    · have := ih ⟨l', hl', hc⟩
      have := @Nat.cast_nonneg ℚ _ (l.count ch)
      nlinarith

lemma combinedDecay_single (l : Level) (ch : ℕ) :
    combinedDecay [l] ch = (l.count ch : ℚ) := by
  rw [combinedDecay_cons]
  simp [combinedDecay]

lemma keysOf_single (l : Level) : keysOf [l] = l.followers.dedup := by
  rw [keysOf, List.flatMap_cons, List.flatMap_nil, List.append_nil]

lemma totalDecay_single (l : Level) : totalDecay [l] = (l.numMatches : ℚ) := by
  have h := List.sum_map_count_dedup_eq_length l.followers
  simp only [totalDecay, keysOf_single]
  calc (l.followers.dedup.map (combinedDecay [l])).sum
      = (l.followers.dedup.map (fun ch => (l.count ch : ℚ))).sum := by
        refine congrArg List.sum (List.map_congr_left ?_)
        intro ch _
        exact combinedDecay_single l ch
    _ = ((l.followers.dedup.map (fun ch => l.followers.count ch)).map
          (fun m : ℕ => (m : ℚ))).sum := by
        rw [List.map_map]; rfl
    _ = (((l.followers.dedup.map (fun ch => l.followers.count ch)).sum : ℕ) : ℚ) :=
        (Nat.cast_list_sum _).symm
    _ = (l.numMatches : ℚ) := by
        rw [show (l.followers.dedup.map (fun ch => l.followers.count ch)).sum =
          l.followers.length from h]
        rfl

lemma blendLog_apply (g : Level → ℝ) :
    ∀ (L : List Level) (f0 : ℕ → ℝ) (ch : ℕ),
      (L.foldl (fun acc l => fun c => acc c + g l * (l.count c : ℝ)) f0) ch =
        f0 ch + (L.map (fun l => g l * (l.count ch : ℝ))).sum := by
  intro L
  induction L with
  | nil => intro f0 ch; simp
  | cons l ls ih =>
    intro f0 ch
    rw [List.foldl_cons, ih, List.map_cons, List.sum_cons, add_assoc]

lemma blendLog_eq_sum (levels : List Level) (ch : ℕ) :
    blendLog levels ch =
      (levels.map (fun l => levelWeight (maxMatchesOf levels) l * (l.count ch : ℝ))).sum := by
  rw [blendLog, blendLog_apply]
  simp

/-- C6: with a non-empty admitted level list, the specificity-log-ratio blend
gives each level the weight `log(maxTotalMatches+1) / log(levelTotalMatches+1)`
(`maxTotalMatches` being the `totalMatches` of the last-admitted, broadest
level), except that a level with `totalMatches = 1` gets `log(maxTotalMatches+1)`
directly, and the blended weight of a byte is the sum over levels of the
level's weight times the level's count for that byte. -/
theorem claim6_log_ratio_blend (levels : List Level) (h : levels ≠ []) (ch : ℕ) :
    blendLog levels ch =
      (levels.map (fun l => levelWeight (maxMatchesOf levels) l * (l.count ch : ℝ))).sum ∧
    maxMatchesOf levels = (levels.getLast h).numMatches ∧
    ∀ l ∈ levels,
      (l.numMatches = 1 →
        levelWeight (maxMatchesOf levels) l = Real.log ((maxMatchesOf levels : ℝ) + 1)) ∧
      (l.numMatches ≠ 1 →
        levelWeight (maxMatchesOf levels) l =
          Real.log ((maxMatchesOf levels : ℝ) + 1) /
            Real.log ((l.numMatches : ℝ) + 1)) := by
  refine ⟨blendLog_eq_sum levels ch, ?_, ?_⟩
  · rw [maxMatchesOf, List.getLastD_eq_getLast?, List.getLast?_eq_getLast levels h]
    rfl
  · intro l _
    constructor
    · intro h1; rw [levelWeight, if_pos h1]
    · intro h1; rw [levelWeight, if_neg h1]

/-- Witness for C6 at a concrete single-level list. -/
theorem claim6_witness :
    blendLog [⟨[2], 1⟩] 2 =
      ([⟨[2], 1⟩].map
        (fun l => levelWeight (maxMatchesOf [⟨[2], 1⟩]) l * (l.count 2 : ℝ))).sum :=
  (claim6_log_ratio_blend [⟨[2], 1⟩] (by simp) 2).1

lemma sum_count_dedup_cast {R : Type} [AddMonoidWithOne R] (fl : List ℕ) :
    (fl.dedup.map (fun ch => ((fl.count ch : ℕ) : R))).sum = (fl.length : R) := by
  have h := List.sum_map_count_dedup_eq_length fl
  calc (fl.dedup.map (fun ch => ((fl.count ch : ℕ) : R))).sum
      = ((fl.dedup.map (fun ch => fl.count ch)).map (fun m : ℕ => (m : R))).sum := by
        rw [List.map_map]; rfl
    _ = (((fl.dedup.map (fun ch => fl.count ch)).sum : ℕ) : R) :=
        (Nat.cast_list_sum _).symm
    _ = (fl.length : R) := by
        rw [show (fl.dedup.map (fun ch => fl.count ch)).sum = fl.length from h]

lemma blendLog_single (l : Level) (ch : ℕ) :
    blendLog [l] ch = levelWeight (maxMatchesOf [l]) l * (l.count ch : ℝ) := by
  rw [blendLog_eq_sum]
  simp

lemma maxMatchesOf_single (l : Level) : maxMatchesOf [l] = l.numMatches := rfl

lemma totalLog_single (l : Level) :
    totalLog [l] = levelWeight (maxMatchesOf [l]) l * (l.numMatches : ℝ) := by
  rw [totalLog, keysOf_single]
  calc (l.followers.dedup.map (blendLog [l])).sum
      = (l.followers.dedup.map
          (fun ch => levelWeight (maxMatchesOf [l]) l * (l.count ch : ℝ))).sum := by
        refine congrArg List.sum (List.map_congr_left ?_)
        intro ch _
        exact blendLog_single l ch
    _ = levelWeight (maxMatchesOf [l]) l *
          (l.followers.dedup.map (fun ch => (l.count ch : ℝ))).sum :=
        List.sum_map_mul_left _ _ _
    _ = levelWeight (maxMatchesOf [l]) l * (l.numMatches : ℝ) := by
        rw [show (l.followers.dedup.map (fun ch => (l.count ch : ℝ))).sum =
          (l.followers.length : ℝ) from sum_count_dedup_cast l.followers]
        rfl

lemma levelWeight_self_ne_zero {l : Level} (h : l.followers ≠ []) :
    levelWeight (maxMatchesOf [l]) l ≠ 0 := by
  have hn : 1 ≤ l.numMatches := by
    rw [Level.numMatches]
    exact Nat.one_le_iff_ne_zero.mpr (fun h0 => h (List.length_eq_zero.mp h0))
  rw [maxMatchesOf_single, levelWeight]
  split_ifs with h1
  · exact ne_of_gt (Real.log_pos (by rw [h1]; norm_num))
  · have h2 : 2 ≤ l.numMatches := by omega
    have hlog : Real.log ((l.numMatches : ℝ) + 1) ≠ 0 := by
      refine ne_of_gt (Real.log_pos ?_)
      have : (2 : ℝ) ≤ (l.numMatches : ℝ) := by exact_mod_cast h2
      linarith
    rw [div_self hlog]
    norm_num

lemma normLog_single (l : Level) (ch : ℕ) :
    normLog [l] ch = (l.count ch : ℝ) / (l.numMatches : ℝ) := by
  by_cases hnil : l.followers = []
  · have hc : l.count ch = 0 := by simp [Level.count, hnil]
    rw [normLog, blendLog_single, hc]
    simp
  · rw [normLog, blendLog_single, totalLog_single,
      mul_div_mul_left _ _ (levelWeight_self_ne_zero hnil)]

/-- C7: blending a single admitted level under either policy, followed by
normalization, yields exactly that level's plain frequency distribution:
each byte's probability is the level's count for the byte divided by the
level's `totalMatches` (rank-decay because `decay^0 = 1`; specificity-log-ratio
because the single level's weight scales numerator and total uniformly). -/
theorem claim7_single_level_blend (l : Level) (ch : ℕ) :
    normDecay [l] ch = (l.count ch : ℚ) / (l.numMatches : ℚ) ∧
    normLog [l] ch = (l.count ch : ℝ) / (l.numMatches : ℝ) := by
  constructor
  · rw [normDecay, combinedDecay_single, totalDecay_single]
  · exact normLog_single l ch

/-! Sampler lemmas. -/

lemma scanPick_total :
    ∀ (ws : List (ℕ × ℝ)) (r : ℝ), 0 ≤ r → r < (ws.map Prod.snd).sum →
      ∃ ch, scanPick ws r = some ch := by
  intro ws
  induction ws with
  | nil =>
    intro r h0 hlt
    simp only [List.map_nil, List.sum_nil] at hlt
    linarith
  | cons p rest ih =>
    intro r h0 hlt
    obtain ⟨ch, w⟩ := p
    by_cases h : r - w < 0
    · exact ⟨ch, by simp only [scanPick, if_pos h]⟩
    · have h0' : 0 ≤ r - w := le_of_not_lt h
      have hlt' : r - w < (rest.map Prod.snd).sum := by
        simp only [List.map_cons, List.sum_cons] at hlt
        linarith
      obtain ⟨c, hc⟩ := ih (r - w) h0' hlt'
      exact ⟨c, by simp only [scanPick, if_neg h]; exact hc⟩

lemma levelScan_followers_ne_nil {data context : List ℕ} {k : ℤ} {l : Level}
    (h : l ∈ levelScan data context k) : l.followers ≠ [] := by
  rcases mem_scanAux data k context [] 0 l h with h' | ⟨m, _, hf, _, _, hfl⟩
  · simp at h'
  · rw [hf]
    intro hnil
    rw [hnil] at hfl
    simp at hfl

lemma keysOf_ne_nil {levels : List Level} (h : levels ≠ [])
    (hf : ∀ l ∈ levels, l.followers ≠ []) : keysOf levels ≠ [] := by
  rw [keysOf, Ne, List.dedup_eq_nil, List.flatMap_eq_nil_iff]
  intro hall
  obtain ⟨l, hl⟩ := List.exists_mem_of_ne_nil levels h
  exact hf l hl (hall l hl)

lemma mem_keysOf {levels : List Level} {ch : ℕ} (h : ch ∈ keysOf levels) :
    ∃ l ∈ levels, ch ∈ l.followers := by
  rw [keysOf, List.mem_dedup, List.mem_flatMap] at h
  exact h

lemma totalTempWeight_pos {levels : List Level} (temp : ℝ) (h : levels ≠ [])
    (hf : ∀ l ∈ levels, l.followers ≠ []) : 0 < totalTempWeight levels temp := by
  rw [totalTempWeight, tempWeights, List.map_map]
  apply List.sum_pos
  · intro x hx
    rw [List.mem_map] at hx
    obtain ⟨ch, hch, hx⟩ := hx
    subst hx
    have hpos : 0 < combinedDecay levels ch := combinedDecay_pos (mem_keysOf hch)
    exact Real.rpow_pos_of_pos (by exact_mod_cast hpos) _
  · rw [Ne, List.map_eq_nil_iff]
    exact keysOf_ne_nil h hf

lemma samplePick_isSome {data context : List ℕ} (temp u : ℝ) {k : ℤ}
    (hlev : levelScan data context k ≠ []) (hu0 : 0 ≤ u) (hu1 : u < 1) :
    samplePick data context temp u k ≠ none := by
  have hf : ∀ l ∈ levelScan data context k, l.followers ≠ [] :=
    fun l hl => levelScan_followers_ne_nil hl
  have htot : 0 < totalTempWeight (levelScan data context k) temp :=
    totalTempWeight_pos temp hlev hf
  have hsum : ((tempWeights (levelScan data context k) temp).map Prod.snd).sum =
      totalTempWeight (levelScan data context k) temp := rfl
  obtain ⟨ch, hch⟩ := scanPick_total (tempWeights (levelScan data context k) temp)
    (u * totalTempWeight (levelScan data context k) temp)
    (mul_nonneg hu0 (le_of_lt htot))
    (by rw [hsum]; nlinarith)
  rw [samplePick]
  simp only [if_neg hlev]
  rw [hch]
  simp

/-- C9: the cumulative-subtraction scan over any weight list returns some
byte whenever the draw `r` satisfies `0 ≤ r` and `r` is below the list's
total weight; consequently, under exact arithmetic, the sampler's trailing
no-symbol return is unreachable whenever at least one level was admitted and
the uniform draw lies in `[0, 1)`. -/
theorem claim9_scan_unreachable_fallthrough :
    (∀ (ws : List (ℕ × ℝ)) (r : ℝ), 0 ≤ r → r < (ws.map Prod.snd).sum →
      ∃ ch, scanPick ws r = some ch) ∧
    (∀ (data context : List ℕ) (temp u : ℝ) (k : ℤ),
      levelScan data context k ≠ [] → 0 ≤ u → u < 1 →
      samplePick data context temp u k ≠ none) :=
  ⟨scanPick_total, fun _ _ temp u _ hlev hu0 hu1 => samplePick_isSome temp u hlev hu0 hu1⟩

/-- Witness for C9: the scan on a concrete one-entry weight list, and the
sampler on a concrete corpus where one level is admitted. -/
theorem claim9_witness :
    (∃ ch, scanPick [(3, (2 : ℝ))] 1 = some ch) ∧
    samplePick [1, 1] [1] 2 0 (-1) ≠ none :=
  ⟨claim9_scan_unreachable_fallthrough.1 [(3, (2 : ℝ))] 1 (by norm_num) (by simp),
   claim9_scan_unreachable_fallthrough.2 [1, 1] [1] 2 0 (-1) (by decide) le_rfl
     (by norm_num)⟩

/-- C3 (code bug): the sampler performs no temperature validation at all —
its result carries no error channel, and at the non-positive temperature
`temp = -1` (corpus `[1, 1]`, context `[1]`, draw `u = 0`, unbounded budget)
it computes `w ^ (1/temp)` and returns the sampled byte 1 as a normal result
instead of rejecting the input as the spec requires. -/
theorem claim3_no_temperature_validation :
    Sample [1, 1] [1] (-1) 0 (-1) = (1, [1], [1]) := by
  have hlev : levelScan [1, 1] [1] (-1) = [⟨[1], 1⟩] := by decide
  have hkeys : keysOf [⟨[1], 1⟩] = [1] := by decide
  have hcd : combinedDecay [⟨[1], 1⟩] 1 = 1 := by
    rw [combinedDecay_cons]
    norm_num [combinedDecay, Level.count]
  have htw : tempWeights [⟨[1], 1⟩] (-1) = [(1, 1)] := by
    rw [tempWeights, hkeys, List.map_cons, List.map_nil, hcd]
    norm_num [Real.one_rpow]
  have htot : totalTempWeight [⟨[1], 1⟩] (-1) = 1 := by
    rw [totalTempWeight, htw]
    simp
  have hpick : samplePick [1, 1] [1] (-1) 0 (-1) = some 1 := by
    rw [samplePick]
    simp only [hlev, htw, htot]
    norm_num [scanPick]
  rw [Sample]
  simp only [hlev, hpick]
  rfl


/-! Generator lemmas. -/

lemma generateAux_extend (data : List ℕ) (temp : ℝ) (u : ℕ → ℝ) (k : ℤ) :
    ∀ (fuel step : ℕ) (result : List ℕ),
      ∃ t, generateAux data temp u k fuel step result = result ++ t := by
  intro fuel
  induction fuel with
  | zero => intro step result; exact ⟨[], by simp [generateAux]⟩
  | succ n ih =>
    intro step result
    simp only [generateAux]
    split_ifs with h
    · exact ⟨[], by simp⟩
    · obtain ⟨t, ht⟩ := ih (step + 1)
        (result ++ [(Sample data (result.drop (result.length - 200)) temp (u step) k).1])
      exact ⟨[(Sample data (result.drop (result.length - 200)) temp (u step) k).1] ++ t,
        by rw [ht, List.append_assoc]⟩

lemma generateAux_len (data : List ℕ) (temp : ℝ) (u : ℕ → ℝ) (k : ℤ) :
    ∀ (fuel step : ℕ) (result : List ℕ),
      (generateAux data temp u k fuel step result).length ≤ result.length + fuel := by
  intro fuel
  induction fuel with
  | zero => intro step result; simp [generateAux]
  | succ n ih =>
    intro step result
    simp only [generateAux]
    split_ifs with h
    · omega
    · have := ih (step + 1)
        (result ++ [(Sample data (result.drop (result.length - 200)) temp (u step) k).1])
      simp only [List.length_append, List.length_singleton] at this
      omega

lemma generateAux_stop (data : List ℕ) (temp : ℝ) (u : ℕ → ℝ) (k : ℤ) :
    ∀ (fuel step : ℕ) (result : List ℕ),
      (generateAux data temp u k fuel step result).length < result.length + fuel →
      (Sample data
        ((generateAux data temp u k fuel step result).drop
          ((generateAux data temp u k fuel step result).length - 200)) temp
        (u (step + ((generateAux data temp u k fuel step result).length - result.length)))
        k).1 = 0 := by
  intro fuel
  induction fuel with
  | zero =>
    intro step result h
    simp only [generateAux] at h
    omega
  | succ n ih =>
    intro step result h
    simp only [generateAux] at h ⊢
    split_ifs at h ⊢ with hch
    · simpa [Nat.sub_self] using hch
    · obtain ⟨t, ht⟩ := generateAux_extend data temp u k n (step + 1)
        (result ++ [(Sample data (result.drop (result.length - 200)) temp (u step) k).1])
      have hge : result.length + 1 ≤
          (generateAux data temp u k n (step + 1)
            (result ++ [(Sample data (result.drop (result.length - 200)) temp
              (u step) k).1])).length := by
        rw [ht]
        simp only [List.length_append, List.length_singleton]
        omega
      have h' : (generateAux data temp u k n (step + 1)
          (result ++ [(Sample data (result.drop (result.length - 200)) temp
            (u step) k).1])).length <
          (result ++ [(Sample data (result.drop (result.length - 200)) temp
            (u step) k).1]).length + n := by
        simp only [List.length_append, List.length_singleton]
        omega
      have hrec := ih (step + 1)
        (result ++ [(Sample data (result.drop (result.length - 200)) temp (u step) k).1]) h'
      simp only [List.length_append, List.length_singleton] at hrec
      have harg : step + 1 +
          ((generateAux data temp u k n (step + 1)
            (result ++ [(Sample data (result.drop (result.length - 200)) temp
              (u step) k).1])).length - (result.length + 1)) =
          step + ((generateAux data temp u k n (step + 1)
            (result ++ [(Sample data (result.drop (result.length - 200)) temp
              (u step) k).1])).length - result.length) := by
        omega
      rw [harg] at hrec
      exact hrec

/-- C4 counterexample: with prompt `[1, 1]` and `maxSymbols = 1` the
generation loop never runs and `Generate` returns the untouched prompt of
length 2, exceeding `maxSymbols` — the claim that the returned text always
has length at most `maxSymbols` is false when the prompt is already longer. -/
theorem claim4_counterexample :
    ¬(Generate [1, 1] [1, 1] 1 1 (fun _ => 0) (-1)).length ≤ 1 := by
  rw [Generate]
  norm_num [generateAux]

/-- C4 (amended): the text returned by `Generate` has length at most
`max (len prompt) maxSymbols` (the loop adds nothing once the length reaches
`maxSymbols`, but a prompt already longer than `maxSymbols` is returned
unchanged), and the loop terminates with length still below `maxSymbols`
only when sampling yields the no-symbol sentinel on the final trailing
200-byte window. -/
theorem claim4_generate_bounds (data prompt : List ℕ) (maxChars : ℕ) (temp : ℝ)
    (u : ℕ → ℝ) (k : ℤ) :
    (Generate data prompt maxChars temp u k).length ≤ max prompt.length maxChars ∧
    ((Generate data prompt maxChars temp u k).length < maxChars →
      (Sample data
        ((Generate data prompt maxChars temp u k).drop
          ((Generate data prompt maxChars temp u k).length - 200)) temp
        (u ((Generate data prompt maxChars temp u k).length - prompt.length)) k).1
        = 0) := by
  constructor
  · have h := generateAux_len data temp u k (maxChars - prompt.length) 0 prompt
    rw [Generate]
    omega
  · intro h
    obtain ⟨t, ht⟩ := generateAux_extend data temp u k (maxChars - prompt.length) 0 prompt
    have hge : prompt.length ≤ (Generate data prompt maxChars temp u k).length := by
      rw [Generate, ht]
      simp
    rw [Generate] at h hge ⊢
    have h' : (generateAux data temp u k (maxChars - prompt.length) 0 prompt).length <
        prompt.length + (maxChars - prompt.length) := by
      omega
    have hrec := generateAux_stop data temp u k (maxChars - prompt.length) 0 prompt h'
    simpa using hrec

/-- Witness for C4 on a concrete input where generation stops early: the
context `[2]` never occurs in the corpus `[1, 1]`, so the first sampling step
yields the sentinel and the output is the prompt alone. -/
theorem claim4_witness :
    (Generate [1, 1] [2] 5 1 (fun _ => 0) (-1)).length < 5 ∧
    (Sample [1, 1]
      ((Generate [1, 1] [2] 5 1 (fun _ => 0) (-1)).drop
        ((Generate [1, 1] [2] 5 1 (fun _ => 0) (-1)).length - 200)) 1
      ((fun _ => (0 : ℝ)) ((Generate [1, 1] [2] 5 1 (fun _ => 0) (-1)).length -
        ([2] : List ℕ).length)) (-1)).1 = 0 := by
  have hlev : levelScan [1, 1] [2] (-1) = [] := by decide
  have hs : (Sample [1, 1] [2] 1 0 (-1)).1 = 0 := by
    rw [Sample, samplePick]
    simp [hlev]
  have hgen : Generate [1, 1] [2] 5 1 (fun _ => 0) (-1) = [2] := by
    rw [Generate]
    norm_num [generateAux, hs]
  refine ⟨by rw [hgen]; norm_num, ?_⟩
  exact (claim4_generate_bounds [1, 1] [2] 5 1 (fun _ => 0) (-1)).2
    (by rw [hgen]; norm_num)

/-- C10: the text returned by `Generate` begins with the prompt unchanged —
the loop only ever appends sampled bytes, so the first `len prompt` bytes of
the output equal the prompt. -/
theorem claim10_prompt_preserved (data prompt : List ℕ) (maxChars : ℕ) (temp : ℝ)
    (u : ℕ → ℝ) (k : ℤ) :
    (Generate data prompt maxChars temp u k).take prompt.length = prompt := by
  obtain ⟨t, ht⟩ := generateAux_extend data temp u k (maxChars - prompt.length) 0 prompt
  rw [Generate, ht, List.take_left]

/-! Perplexity lemmas. -/

lemma pplAccum_foldl (f : ℕ → ℝ) :
    ∀ (l : List ℕ) (s : ℝ) (c : ℕ),
      l.foldl (fun acc i => (acc.1 + f i, acc.2 + 1)) (s, c) =
        (s + (l.map f).sum, c + l.length) := by
  intro l
  induction l with
  | nil => intro s c; simp
  | cons x xs ih =>
    intro s c
    rw [List.foldl_cons, ih]
    simp only [List.map_cons, List.sum_cons, List.length_cons, Prod.mk.injEq]
    constructor
    · ring
    · omega

/-- C2: for every index, text of length at least 2, budget `k` and context
window, the perplexity loop evaluates exactly the positions `i = 1` to
`len(text)-1` with context `text[max(0,i-contextWindow):i]`, accumulating
`count = len(text)-1` and the sum of the natural logs of the per-position
probabilities, and the result is `exp(-Σ log p / count)`; the per-position
probability is the smoothing floor `1e-10` when no levels are admitted or
when the normalized blended probability of the true next byte is not
positive, and the normalized blended probability of the true next byte
otherwise. -/
theorem claim2_perplexity_formula (data text : List ℕ) (k : ℤ) (cw : ℕ)
    (h : 2 ≤ text.length) :
    pplAccum data text k cw =
      (((List.range' 1 (text.length - 1)).map
        (fun i => Real.log (pplProbAt data k cw text i))).sum, text.length - 1) ∧
    Perplexity data text k cw =
      Real.exp (-(((List.range' 1 (text.length - 1)).map
        (fun i => Real.log (pplProbAt data k cw text i))).sum) /
        ((text.length - 1 : ℕ) : ℝ)) ∧
    (∀ i, levelScan data ((text.take i).drop (i - cw)) k = [] →
      pplProbAt data k cw text i = 1e-10) ∧
    (∀ i, levelScan data ((text.take i).drop (i - cw)) k ≠ [] →
      ¬(0 < normDecay (levelScan data ((text.take i).drop (i - cw)) k) (text.getD i 0)) →
      pplProbAt data k cw text i = 1e-10) ∧
    (∀ i, levelScan data ((text.take i).drop (i - cw)) k ≠ [] →
      0 < normDecay (levelScan data ((text.take i).drop (i - cw)) k) (text.getD i 0) →
      pplProbAt data k cw text i =
        ((normDecay (levelScan data ((text.take i).drop (i - cw)) k)
          (text.getD i 0) : ℚ) : ℝ)) := by
  have h1 : pplAccum data text k cw =
      (((List.range' 1 (text.length - 1)).map
        (fun i => Real.log (pplProbAt data k cw text i))).sum, text.length - 1) := by
    rw [pplAccum, pplAccum_foldl]
    simp [List.length_range']
  refine ⟨h1, ?_, ?_, ?_, ?_⟩
  · rw [Perplexity, h1]
  · intro i hlev
    simp only [pplProbAt]
    rw [if_pos hlev]
  · intro i hne hnp
    simp only [pplProbAt]
    rw [if_neg hne, if_neg hnp]
  · intro i hne hp
    simp only [pplProbAt]
    rw [if_neg hne, if_pos hp]

/-- Witness for C2 at a concrete text of length 2: the accumulated position
count is exactly 1. -/
theorem claim2_witness :
    2 ≤ ([5, 6] : List ℕ).length ∧ (pplAccum [] [5, 6] (-1) 3).2 = 1 := by
  refine ⟨by norm_num, ?_⟩
  rw [(claim2_perplexity_formula [] [5, 6] (-1) 3 (by norm_num)).1]
  rfl

/-- C8: on a text of length 0 or 1 the perplexity loop evaluates zero
positions, so `logProbSum` and `count` both stay 0 and the final Go
expression `exp(-logProbSum/count)` divides by zero (`NaN` in float64) —
the stated perplexity formula is well-defined only when the text has length
at least 2. -/
theorem claim8_short_text_division_by_zero (data text : List ℕ) (k : ℤ) (cw : ℕ)
    (h : text.length ≤ 1) :
    List.range' 1 (text.length - 1) = [] ∧
    pplAccum data text k cw = (0, 0) := by
  have h0 : text.length - 1 = 0 := by omega
  constructor
  · rw [h0]
    rfl
  · rw [pplAccum, h0]
    rfl

/-- Witness for C8 at a concrete one-byte text. -/
theorem claim8_witness :
    List.range' 1 (([7] : List ℕ).length - 1) = [] ∧
    pplAccum [] [7] 1 0 = (0, 0) :=
  claim8_short_text_division_by_zero [] [7] 1 0 (by norm_num)

end TinyInfiniGram
